import Mathlib

/-!
Shallow embedding of daemonl/cra-version-proxy.go (src/main.go and the later
evolutionary snapshot embedded in src/README.md), the versioned static-asset
reverse proxy.  The request pipeline wraps handlers as
`VersionSwitch(default)(fileServer)` then `AppRewrite(...)` then `Logger(...)`,
so at request time the order is: AppRewrite, then VersionSwitch, then the
fileServer fetch-through cache.

Path arithmetic (`path.Clean`, `path.Join`, `path.Ext`, `url.PathEscape`) is
translated byte-for-byte from the Go standard library routines the program
calls; byte-level processing is modelled on `List Char`, which is faithful
because the bytes the algorithms branch on (`/` and `.`) are single-byte in
UTF-8 and all other bytes are copied verbatim.
-/

set_option autoImplicit false

namespace CraProxy

/-! ### Go `path.Clean`

Transcribed from Go's `path.Clean`.  The output buffer is kept reversed
(`out`); `dotdot` is the index in the buffer up to which `..` may not pop;
`inSeg` tells whether we are inside the inner copy loop
(`for ; r < n && path[r] != '/'; r++ { out.append(path[r]) }`). -/

/-- Go `Clean`'s `..`-case pop: `out.w--; for out.w > dotdot && out.index(out.w) != '/' { out.w-- }`,
on the reversed buffer. -/
def popSeg (dotdot : Nat) : List Char → List Char
  | [] => []
  | c :: rest => if dotdot < rest.length ∧ c ≠ '/' then popSeg dotdot rest else rest

/-- The separator test Go writes as `r+1 == n || path[r+1] == '/'`. -/
def isBoundary : List Char → Bool
  | [] => true
  | c :: _ => c = '/'

/-- Go `Clean`'s conditional slash before copying a segment:
`if rooted && out.w != 1 || !rooted && out.w != 0 { out.append('/') }`,
on the reversed buffer. -/
def slashMaybe (rooted : Bool) (out : List Char) : List Char :=
  if (rooted ∧ out.length ≠ 1) ∨ (¬rooted ∧ out ≠ []) then '/' :: out else out

/-- The main loop of Go `path.Clean` on the reversed output buffer. -/
def cleanCore (rooted : Bool) : Nat → Bool → List Char → List Char → List Char
  | _, _, out, [] => out
  | dotdot, true, out, c :: rest =>
    if c = '/' then cleanCore rooted dotdot false out rest
    else cleanCore rooted dotdot true (c :: out) rest
  | dotdot, false, out, '/' :: rest => cleanCore rooted dotdot false out rest
  | _, false, out, ['.'] => out
  | dotdot, false, out, '.' :: '/' :: rest => cleanCore rooted dotdot false out rest
  | dotdot, false, out, '.' :: '.' :: rest =>
    if isBoundary rest then
      if dotdot < out.length then
        cleanCore rooted dotdot false (popSeg dotdot out) rest
      else if rooted then
        cleanCore rooted dotdot false out rest
      else
        let out2 := '.' :: '.' :: (if out = [] then out else '/' :: out)
        cleanCore rooted out2.length false out2 rest
    else
      cleanCore rooted dotdot true ('.' :: '.' :: slashMaybe rooted out) rest
  | dotdot, false, out, c :: rest =>
    cleanCore rooted dotdot true (c :: slashMaybe rooted out) rest

/-- Go `path.Clean` on a character list. -/
def cleanList (p : List Char) : List Char :=
  match p with
  | [] => ['.']
  | c :: rest =>
    let out := if c = '/' then cleanCore true 1 false ['/'] rest
               else cleanCore false 0 false [] (c :: rest)
    if out = [] then ['.'] else out.reverse

/-- Go `path.Clean`. -/
def pathClean (s : String) : String := ⟨cleanList s.data⟩

/-! ### Go `path.Join` (two arguments, as the program calls it) -/

/-- Go `path.Join(a, b)`: skip leading empty elements, join the remainder
with `/`, and `Clean` the result. -/
def pathJoin2 (a b : String) : String :=
  if a ≠ "" then pathClean (a ++ "/" ++ b)
  else if b ≠ "" then pathClean b
  else ""

/-! ### Go `path.Ext` -/

/-- Scan of Go `path.Ext`, over the reversed character list, carrying the
characters already passed (in forward order). -/
def pathExtAux : List Char → List Char → String
  | _, [] => ""
  | acc, c :: rest =>
    if c = '/' then ""
    else if c = '.' then ⟨c :: acc⟩
    else pathExtAux (c :: acc) rest

/-- Go `path.Ext`: the suffix beginning at the final dot in the final
slash-separated element; empty if there is none. -/
def pathExt (s : String) : String := pathExtAux [] s.data.reverse

/-! ### Go `url.PathEscape` -/

/-- UTF-8 bytes of a character, as Go iterates over string bytes. -/
def utf8Bytes (c : Char) : List Nat :=
  let n := c.toNat
  if n < 0x80 then [n]
  else if n < 0x800 then [0xC0 + n / 0x40, 0x80 + n % 0x40]
  else if n < 0x10000 then [0xE0 + n / 0x1000, 0x80 + n / 0x40 % 0x40, 0x80 + n % 0x40]
  else [0xF0 + n / 0x40000, 0x80 + n / 0x1000 % 0x40, 0x80 + n / 0x40 % 0x40, 0x80 + n % 0x40]

/-- Go `shouldEscape(c, encodePathSegment)`: alphanumerics, `-_.~` and the
sub-delims `$&+:=@` stay; `/;,?` and every other byte are escaped. -/
def shouldEscapeByte (b : Nat) : Bool :=
  ¬((0x61 ≤ b ∧ b ≤ 0x7A) ∨ (0x41 ≤ b ∧ b ≤ 0x5A) ∨ (0x30 ≤ b ∧ b ≤ 0x39) ∨
    b = 45 ∨ b = 95 ∨ b = 46 ∨ b = 126 ∨
    b = 36 ∨ b = 38 ∨ b = 43 ∨ b = 58 ∨ b = 61 ∨ b = 64)

/-- Upper-case hex digit, Go's `upperhex` table. -/
def upperHexDigit (n : Nat) : Char :=
  if n < 10 then Char.ofNat (48 + n) else Char.ofNat (55 + n)

/-- One byte of Go `escape` output in `encodePathSegment` mode. -/
def escByte (b : Nat) : List Char :=
  if shouldEscapeByte b then ['%', upperHexDigit (b / 16), upperHexDigit (b % 16)]
  else [Char.ofNat b]

/-- Go `url.PathEscape`. -/
def pathEscape (s : String) : String :=
  ⟨((s.data.map utf8Bytes).flatten.map escByte).flatten⟩

/-! ### HTTP data model

An origin response is modelled by its status code, header list and body.
The program persists responses with `res.Write` (the complete serialized
response, status line + headers + body) and re-reads them with
`http.ReadResponse`; these two standard-library routines are inverse on
well-formed files, so a cache file is modelled as either the serialized
form of a response (remembering the response) or malformed bytes that
`http.ReadResponse` rejects. -/

structure HttpResponse where
  statusCode : Nat
  headers : List (String × String)
  body : String
deriving DecidableEq, Repr

/-- Contents of one file under the cache root. -/
inductive FileContent where
  | response (r : HttpResponse)
  | malformed
deriving DecidableEq, Repr

/-- The on-disk cache: an association from absolute slash paths (relative to
the cache root) to file contents.  First binding wins on lookup. -/
abbrev Cache : Type := List (String × FileContent)

/-- `http.Dir.Open` / `os.Open` of the file for `p`. -/
def cacheLookup (cache : Cache) (p : String) : Option FileContent :=
  (cache.find? (fun kv => kv.1 = p)).map (fun kv => kv.2)

/-- `os.Create` (truncating) plus the write of the fetched response. -/
def cacheInsert (cache : Cache) (p : String) (f : FileContent) : Cache :=
  (p, f) :: cache.filter (fun kv => kv.1 ≠ p)

/-- An outbound `Set-Cookie`, with the fields the program touches.
`expires` is an absolute time in seconds. -/
structure Cookie where
  name : String
  value : String
  path : String
  expires : Nat
  httpOnly : Bool
deriving DecidableEq, Repr

/-- The state accumulated on an `http.ResponseWriter`: header map (as an
ordered list of key/value pairs), the cookies passed to `http.SetCookie`,
the status code once written (further writes are no-ops), and the body. -/
structure ResponseWriter where
  headers : List (String × String)
  cookies : List Cookie
  status : Option Nat
  body : String
deriving DecidableEq, Repr

def emptyRW : ResponseWriter := ⟨[], [], none, ""⟩

/-- `rw.Header().Set(k, v)`: replace every value of `k`. -/
def headerSet (hs : List (String × String)) (k v : String) : List (String × String) :=
  hs.filter (fun kv => kv.1 ≠ k) ++ [(k, v)]

/-- `rw.Header().Add(k, v)` repeated over a list of pairs (the copy loops in
`tryServeFile` and `doProxy`). -/
def headerGet (hs : List (String × String)) (k : String) : Option String :=
  (hs.find? (fun kv => kv.1 = k)).map (fun kv => kv.2)

/-- `rw.WriteHeader(s)`: only the first written status sticks. -/
def writeStatus (st : Option Nat) (s : Nat) : Option Nat :=
  match st with
  | none => some s
  | some x => some x

/-- `doError`: log and `rw.WriteHeader(500)`. -/
def doError (rw : ResponseWriter) : ResponseWriter :=
  { rw with status := writeStatus rw.status 500 }

/-- The tail of `tryServeFile` on a successfully parsed response: copy all
headers with `Add`, write the status, stream the body. -/
def writeResponseTo (rw : ResponseWriter) (r : HttpResponse) : ResponseWriter :=
  { rw with
      headers := rw.headers ++ r.headers
      status := writeStatus rw.status r.statusCode
      body := rw.body ++ r.body }

/-! ### The inbound request -/

/-- An inbound request: its URL path, the parsed query parameters
(`req.URL.Query()`), and the cookies of the `Cookie` header in order. -/
structure Request where
  path : String
  query : List (String × String)
  cookies : List (String × String)

/-- `req.URL.Query().Get(k)`: first value, or `""` when absent. -/
def queryGet (q : List (String × String)) (k : String) : String :=
  match q.find? (fun kv => kv.1 = k) with
  | none => ""
  | some kv => kv.2

/-- `req.Cookie(name)`: the first request cookie with that name, if any.
Request cookies carry only a name and a value. -/
def cookieGet (cs : List (String × String)) (k : String) : Option String :=
  (cs.find? (fun kv => kv.1 = k)).map (fun kv => kv.2)

/-! ### VersionSwitch -/

def VERSION_COOKIE_NAME : String := "version-override"

/-- The resolution/side-effect part of the `VersionSwitch` handler (the
snapshot taking a `defaultVersion func() string` accessor; the `src/main.go`
snapshot inlines a constant accessor).  Returns the resolved version token,
the response writer after cookie/header effects, and whether the default
accessor supplied the token.  `now` is `time.Now()` in seconds. -/
def versionSwitchStep (dv : Unit → String) (now : Nat) (req : Request)
    (rw : ResponseWriter) : String × ResponseWriter × Bool :=
  let qv := queryGet req.query "version"
  if qv ≠ "" then
    let ck : Cookie := ⟨VERSION_COOKIE_NAME, qv, "/", now + 3600, false⟩
    (qv,
     { rw with cookies := rw.cookies ++ [ck],
               headers := headerSet rw.headers "Cache-Control" "no-store" },
     false)
  else
    match cookieGet req.cookies VERSION_COOKIE_NAME with
    | some cv =>
      let ck : Cookie := ⟨VERSION_COOKIE_NAME, cv, "", now + 3600, false⟩
      (cv,
       { rw with cookies := rw.cookies ++ [ck],
                 headers := headerSet rw.headers "Cache-Control" "no-store" },
       false)
    | none => (dv (), rw, true)

/-- The path rewrite at the end of `VersionSwitch`:
`path.Clean("/" + path.Join(url.PathEscape(version), req.URL.Path))`. -/
def versionSwitchPath (version p : String) : String :=
  pathClean ("/" ++ pathJoin2 (pathEscape version) p)

/-! ### AppRewrite -/

/-- `AppRewrite`: requests whose path has no extension become `/index.html`. -/
def appRewritePath (p : String) : String :=
  if pathExt p = "" then "/index.html" else p

/-! ### fileServer -/

/-- The path stored/opened under the cache root: both `http.Dir.Open` and the
clone of it in `doCacheFetch` compute `filepath.FromSlash(path.Clean("/" + name))`
and join it under the root (`filepath.FromSlash` is the identity on slash
separators). -/
def diskPath (name : String) : String := pathClean ("/" ++ name)

/-- The upstream URL path of `doCacheFetch`:
`path.Join(fs.sourceURL.Path, name)`. -/
def fetchURLPath (basePath name : String) : String := pathJoin2 basePath name

inductive TryServeError where
  | notExist
  | parseFail
deriving DecidableEq, Repr

/-- `tryServeFile`, up to the response bytes: open the cache file (missing
file gives the `os.IsNotExist` error), parse it as a serialized response. -/
def tryServeFileResult (cache : Cache) (name : String) :
    Except TryServeError HttpResponse :=
  match cacheLookup cache (diskPath name) with
  | none => Except.error TryServeError.notExist
  | some FileContent.malformed => Except.error TryServeError.parseFail
  | some (FileContent.response r) => Except.ok r

/-- `doCacheFetch`: GET the origin (`none` is a transport error, any response
with any status code is a success), then create the cache file and write the
whole response to it.  Returns the updated cache, or `none` on transport
error, in which case nothing was written. -/
def doCacheFetchStep (origin : String → Option HttpResponse) (basePath : String)
    (cache : Cache) (name : String) : Option Cache :=
  match origin (fetchURLPath basePath name) with
  | none => none
  | some res => some (cacheInsert cache (diskPath name) (FileContent.response res))

/-- Result of one `fileServer.ServeHTTP` run.  `originCalls` counts
`fs.client.Get` invocations and `lookups` counts `tryServeFile` invocations
(instrumentation, not program state); `servedName` is the local variable
`name`. -/
structure Outcome where
  rw : ResponseWriter
  cache : Cache
  originCalls : Nat
  lookups : Nat
  servedName : String

/-- `fileServer.ServeHTTP`: mark `X-Cache: hit`, try the cache; on a missing
file mark `miss`, fetch+persist from the origin and retry the lookup once;
any other failure becomes a 500. -/
def serveHTTPStep (origin : String → Option HttpResponse) (basePath : String)
    (cache : Cache) (reqPath : String) (rw0 : ResponseWriter) : Outcome :=
  let rw1 := { rw0 with headers := headerSet rw0.headers "X-Cache" "hit" }
  let name := pathClean reqPath
  match tryServeFileResult cache name with
  | Except.ok r => ⟨writeResponseTo rw1 r, cache, 0, 1, name⟩
  | Except.error TryServeError.parseFail => ⟨doError rw1, cache, 0, 1, name⟩
  | Except.error TryServeError.notExist =>
    let rw2 := { rw1 with headers := headerSet rw1.headers "X-Cache" "miss" }
    match doCacheFetchStep origin basePath cache name with
    | none => ⟨doError rw2, cache, 1, 1, name⟩
    | some cache2 =>
      match tryServeFileResult cache2 name with
      | Except.ok r => ⟨writeResponseTo rw2 r, cache2, 1, 2, name⟩
      | Except.error _ => ⟨doError rw2, cache2, 1, 2, name⟩

/-! ### The composed pipeline

`main` builds `Logger(AppRewrite(VersionSwitch(default)(fileServer)))`, so a
request passes through `AppRewrite` first, then `VersionSwitch`, then the
cache (`Logger` only observes). -/

/-- One request through the pipeline.  Returns the fileServer outcome, the
resolved version token and whether the default accessor was consulted. -/
def handleRequest (dv : Unit → String) (now : Nat)
    (origin : String → Option HttpResponse) (basePath : String)
    (cache : Cache) (req : Request) : Outcome × String × Bool :=
  let p1 := appRewritePath req.path
  let r := versionSwitchStep dv now req emptyRW
  let newPath := versionSwitchPath r.1 p1
  (serveHTTPStep origin basePath cache newPath r.2.1, r.1, r.2.2)

/-! ### Definitions for statements -/

/-- A plain path segment: nonempty, without `/`, and not the special `.`
or `..` segments that `path.Clean` rewrites. -/
def simpleSeg (s : List Char) : Bool :=
  s ≠ [] ∧ '/' ∉ s ∧ s ≠ ['.'] ∧ s ≠ ['.', '.']

/-- Concatenation `/s1/s2.../sn` of a list of segments. -/
def segsConcat (segs : List (List Char)) : List Char :=
  segs.foldr (fun s acc => '/' :: s ++ acc) []

/-- Canonical rooted path for a list of segments (`/` when empty). -/
def canonAbs (segs : List (List Char)) : List Char :=
  if segs = [] then ['/'] else segsConcat segs

/-- Modelled from the spec, for comparison only: the claim-C4 ordering in
which the version prefix is applied first and app-shell routing afterwards
tests the version-prefixed path. -/
def specOrderedRewritePath (version p : String) : String :=
  appRewritePath (versionSwitchPath version p)

/-! ## Theory of `path.Clean`

The loop of `cleanCore` is characterised on canonical rooted paths: it maps
the reversed buffer of a canonical path to the reversed buffer of another
canonical path (production), and canonical paths are fixed points
(idempotence of `Clean`). -/

theorem cc_nil (rooted : Bool) (dd : Nat) (inSeg : Bool) (out : List Char) :
    cleanCore rooted dd inSeg out [] = out := by
  cases inSeg <;> simp [cleanCore]

theorem cc_true_slash (rooted : Bool) (dd : Nat) (out rest : List Char) :
    cleanCore rooted dd true out ('/' :: rest) = cleanCore rooted dd false out rest := by
  simp [cleanCore]

theorem cc_true_copy (rooted : Bool) (dd : Nat) (out rest : List Char) {c : Char}
    (h : c ≠ '/') :
    cleanCore rooted dd true out (c :: rest) = cleanCore rooted dd true (c :: out) rest := by
  simp [cleanCore, h]

theorem cc_slash (rooted : Bool) (dd : Nat) (out rest : List Char) :
    cleanCore rooted dd false out ('/' :: rest) = cleanCore rooted dd false out rest := by
  simp [cleanCore]

theorem cc_dot_end (rooted : Bool) (dd : Nat) (out : List Char) :
    cleanCore rooted dd false out ['.'] = out := by
  simp [cleanCore]

theorem cc_dot_slash (rooted : Bool) (dd : Nat) (out rest : List Char) :
    cleanCore rooted dd false out ('.' :: '/' :: rest) = cleanCore rooted dd false out rest := by
  simp [cleanCore]

theorem cc_dotdot_pop (rooted : Bool) (dd : Nat) (out rest : List Char)
    (hb : isBoundary rest = true) (hlen : dd < out.length) :
    cleanCore rooted dd false out ('.' :: '.' :: rest) =
      cleanCore rooted dd false (popSeg dd out) rest := by
  simp [cleanCore, hb, hlen]

theorem cc_dotdot_skip (dd : Nat) (out rest : List Char)
    (hb : isBoundary rest = true) (hlen : ¬dd < out.length) :
    cleanCore true dd false out ('.' :: '.' :: rest) =
      cleanCore true dd false out rest := by
  simp [cleanCore, hb, hlen]

theorem cc_dotdot_seg (rooted : Bool) (dd : Nat) (out rest : List Char)
    (hb : isBoundary rest = false) :
    cleanCore rooted dd false out ('.' :: '.' :: rest) =
      cleanCore rooted dd true ('.' :: '.' :: slashMaybe rooted out) rest := by
  simp [cleanCore, hb]

theorem cc_dot_seg (rooted : Bool) (dd : Nat) (out rest : List Char) {d : Char}
    (hd1 : d ≠ '/') (hd2 : d ≠ '.') :
    cleanCore rooted dd false out ('.' :: d :: rest) =
      cleanCore rooted dd true ('.' :: slashMaybe rooted out) (d :: rest) := by
  simp [cleanCore, hd1, hd2]

theorem cc_general (rooted : Bool) (dd : Nat) (out rest : List Char) {c : Char}
    (h1 : c ≠ '/') (h2 : c ≠ '.') :
    cleanCore rooted dd false out (c :: rest) =
      cleanCore rooted dd true (c :: slashMaybe rooted out) rest := by
  simp [cleanCore, h1, h2]

/-- The inner copy loop consumes a slash-free block verbatim. -/
theorem cc_copy (rooted : Bool) (dd : Nat) (s : List Char) (hs : '/' ∉ s) :
    ∀ out rest : List Char,
      cleanCore rooted dd true out (s ++ rest) =
        cleanCore rooted dd true (s.reverse ++ out) rest := by
  induction s with
  | nil => intro out rest; simp
  | cons c cs ih =>
    intro out rest
    have hc : c ≠ '/' := fun h => hs (h ▸ List.mem_cons_self c cs)
    have hcs : '/' ∉ cs := fun h => hs (List.mem_cons_of_mem c h)
    rw [List.cons_append, cc_true_copy rooted dd out (cs ++ rest) hc, ih hcs]
    simp

/-- From segment-boundary position, a simple segment is copied whole,
preceded by a slash when the buffer demands one. -/
theorem cc_seg_start (rooted : Bool) (dd : Nat) (s : List Char)
    (hs : simpleSeg s = true) :
    ∀ out rest : List Char,
      cleanCore rooted dd false out (s ++ rest) =
        cleanCore rooted dd true (s.reverse ++ slashMaybe rooted out) rest := by
  have hs' := hs
  simp only [simpleSeg, Bool.and_eq_true, decide_eq_true_eq] at hs'
  obtain ⟨hne, hnosl, hdot, hdotdot⟩ := hs'
  intro out rest
  match s, hne with
  | c :: cs, _ =>
    have hc : c ≠ '/' := fun h => hnosl (h ▸ List.mem_cons_self c cs)
    have hcs : '/' ∉ cs := fun h => hnosl (List.mem_cons_of_mem c h)
    by_cases hcdot : c = '.'
    · subst hcdot
      match cs, (by simpa using hdot : cs ≠ []) with
      | d :: cs2, _ =>
        have hd : d ≠ '/' := fun h => hcs (h ▸ List.mem_cons_self d cs2)
        have hcs2 : '/' ∉ cs2 := fun h => hcs (List.mem_cons_of_mem d h)
        by_cases hddot : d = '.'
        · subst hddot
          match cs2, (by simpa using hdotdot : cs2 ≠ []) with
          | e :: cs3, _ =>
            have he : e ≠ '/' := fun h => hcs2 (h ▸ List.mem_cons_self e cs3)
            have hb : isBoundary ((e :: cs3) ++ rest) = false := by
              simp [isBoundary, he]
            rw [List.cons_append, List.cons_append,
              cc_dotdot_seg rooted dd out ((e :: cs3) ++ rest) hb,
              cc_copy rooted dd (e :: cs3) hcs2]
            simp
        · rw [List.cons_append, List.cons_append,
            cc_dot_seg rooted dd out (cs2 ++ rest) hd hddot,
            ← List.cons_append, cc_copy rooted dd (d :: cs2) hcs]
          simp
    · rw [List.cons_append, cc_general rooted dd out (cs ++ rest) hc hcdot,
        cc_copy rooted dd cs hcs]
      simp

theorem segsConcat_nil : segsConcat [] = [] := rfl

theorem segsConcat_cons (s : List Char) (ss : List (List Char)) :
    segsConcat (s :: ss) = '/' :: s ++ segsConcat ss := rfl

theorem segsConcat_append (a b : List (List Char)) :
    segsConcat (a ++ b) = segsConcat a ++ segsConcat b := by
  induction a with
  | nil => simp [segsConcat_nil]
  | cons s ss ih => simp [segsConcat_cons, ih]

theorem canonAbs_nil : canonAbs [] = ['/'] := rfl

theorem canonAbs_cons (s : List Char) (ss : List (List Char)) :
    canonAbs (s :: ss) = '/' :: s ++ segsConcat ss := by
  simp [canonAbs, segsConcat_cons]

theorem canonAbs_ne_nil (segs : List (List Char)) : canonAbs segs ≠ [] := by
  cases segs with
  | nil => simp [canonAbs_nil]
  | cons s ss => simp [canonAbs_cons]

theorem canonAbs_head (segs : List (List Char)) :
    ∃ t : List Char, canonAbs segs = '/' :: t := by
  cases segs with
  | nil => exact ⟨[], rfl⟩
  | cons s ss => exact ⟨s ++ segsConcat ss, canonAbs_cons s ss⟩

theorem segsConcat_ne_nil (s : List Char) (ss : List (List Char)) :
    segsConcat (s :: ss) ≠ [] := by
  simp [segsConcat_cons]

theorem canonAbs_length_eq_one (segs : List (List Char))
    (h : ∀ s ∈ segs, simpleSeg s = true) :
    (canonAbs segs).length = 1 ↔ segs = [] := by
  cases segs with
  | nil => simp [canonAbs_nil]
  | cons s ss =>
    have hne : s ≠ [] := by
      have := h s (List.mem_cons_self s ss)
      simp only [simpleSeg, Bool.and_eq_true, decide_eq_true_eq] at this
      exact this.1
    match s, hne with
    | c :: s', _ => simp [canonAbs_cons, segsConcat_cons, Nat.succ_ne_zero]

/-- The buffer-extension step: appending one simple segment to the reversed
canonical buffer is exactly `slashMaybe` followed by the copied segment. -/
theorem canon_step (done : List (List Char)) (s : List Char)
    (h : ∀ t ∈ done, simpleSeg t = true) :
    s.reverse ++ slashMaybe true (canonAbs done).reverse =
      (canonAbs (done ++ [s])).reverse := by
  cases done with
  | nil =>
    simp [canonAbs_nil, canonAbs_cons, segsConcat_nil, slashMaybe]
  | cons d ds =>
    have hlen : ((canonAbs (d :: ds)).reverse).length ≠ 1 := by
      rw [List.length_reverse]
      intro hcontra
      exact (by simp : d :: ds ≠ ([] : List (List Char)))
        ((canonAbs_length_eq_one (d :: ds) h).mp hcontra)
    rw [slashMaybe, if_pos (Or.inl ⟨rfl, hlen⟩)]
    have h1 : canonAbs ((d :: ds) ++ [s]) = segsConcat (d :: ds) ++ '/' :: s := by
      rw [canonAbs, if_neg (by simp), segsConcat_append]
      simp [segsConcat_cons, segsConcat_nil]
    rw [h1, canonAbs, if_neg (by simp)]
    rw [List.reverse_append]
    simp

/-- Running the loop over `s ++ segsConcat ss` from the reversed canonical
buffer of `done` appends all of `s :: ss`. -/
theorem cc_fix_aux (ss : List (List Char)) :
    ∀ (s : List Char) (done : List (List Char)),
      simpleSeg s = true →
      (∀ t ∈ ss, simpleSeg t = true) →
      (∀ t ∈ done, simpleSeg t = true) →
      cleanCore true 1 false (canonAbs done).reverse (s ++ segsConcat ss) =
        (canonAbs (done ++ s :: ss)).reverse := by
  induction ss with
  | nil =>
    intro s done hs _ hdone
    rw [segsConcat_nil, cc_seg_start true 1 s hs, cc_nil,
      canon_step done s hdone]
  | cons t ts ih =>
    intro s done hs hss hdone
    have ht : simpleSeg t = true := hss t (List.mem_cons_self t ts)
    have hts : ∀ u ∈ ts, simpleSeg u = true := fun u hu => hss u (List.mem_cons_of_mem t hu)
    rw [segsConcat_cons, cc_seg_start true 1 s hs]
    simp only [List.cons_append]
    rw [cc_true_slash, canon_step done s hdone,
      ih t (done ++ [s]) ht hts (by
        intro u hu
        rcases List.mem_append.mp hu with h1 | h1
        · exact hdone u h1
        · simp only [List.mem_singleton] at h1
          exact h1 ▸ hs)]
    simp

/-- Canonical rooted paths are fixed points of `path.Clean`. -/
theorem cleanList_canon (segs : List (List Char))
    (h : ∀ s ∈ segs, simpleSeg s = true) :
    cleanList (canonAbs segs) = canonAbs segs := by
  cases segs with
  | nil => rfl
  | cons s ss =>
    have hs : simpleSeg s = true := h s (List.mem_cons_self s ss)
    have hss : ∀ t ∈ ss, simpleSeg t = true := fun t ht => h t (List.mem_cons_of_mem s ht)
    rw [canonAbs_cons]
    show cleanList ('/' :: (s ++ segsConcat ss)) = '/' :: s ++ segsConcat ss
    rw [cleanList, if_pos rfl]
    have h0 : (['/'] : List Char) = (canonAbs ([] : List (List Char))).reverse := rfl
    rw [h0, cc_fix_aux ss s [] hs hss (by intro t ht; cases ht), List.nil_append]
    rw [if_neg (by simp [canonAbs_ne_nil]), List.reverse_reverse, canonAbs_cons]

theorem dropWhile_boundary (l : List Char) :
    isBoundary (l.dropWhile (fun x => x ≠ '/')) = true := by
  induction l with
  | nil => rfl
  | cons c rest ih =>
    by_cases hc : c = '/'
    · subst hc
      rw [List.dropWhile_cons_of_neg (by simp)]
      rfl
    · rw [List.dropWhile_cons_of_pos (by simp [hc])]
      exact ih

theorem popSeg_go (l : List Char) (hne : l ≠ []) (hnosl : '/' ∉ l) (tail : List Char) :
    popSeg 1 (l ++ '/' :: tail) = if tail = [] then ['/'] else tail := by
  induction l with
  | nil => exact absurd rfl hne
  | cons c l ih =>
    have hc : c ≠ '/' := fun h => hnosl (h ▸ List.mem_cons_self c l)
    have hl : '/' ∉ l := fun h => hnosl (List.mem_cons_of_mem c h)
    cases l with
    | nil =>
      cases tail with
      | nil => simp [popSeg, hc]
      | cons e t => simp [popSeg, hc]
    | cons c2 l2 =>
      rw [List.cons_append, popSeg,
        if_pos ⟨by simp [List.length_append], hc⟩]
      exact ih (by simp) hl

theorem popSeg_canon (done : List (List Char)) (hne : done ≠ [])
    (h : ∀ t ∈ done, simpleSeg t = true) :
    popSeg 1 (canonAbs done).reverse = (canonAbs done.dropLast).reverse := by
  set last := done.getLast hne with hlast
  have hmem : last ∈ done := List.getLast_mem hne
  have hsimple := h last hmem
  simp only [simpleSeg, Bool.and_eq_true, decide_eq_true_eq] at hsimple
  obtain ⟨hlne, hlnosl, _, _⟩ := hsimple
  have hdecomp : done.dropLast ++ [last] = done := List.dropLast_append_getLast hne
  have h1 : canonAbs done = segsConcat done.dropLast ++ ('/' :: last) := by
    rw [canonAbs, if_neg hne, ← hdecomp, segsConcat_append]
    simp [segsConcat_cons, segsConcat_nil]
  rw [h1, List.reverse_append, List.reverse_cons]
  rw [List.append_assoc, List.singleton_append]
  rw [popSeg_go last.reverse (by simpa using hlne) (by simpa using hlnosl)]
  by_cases hinit : done.dropLast = []
  · rw [if_pos (by simp [hinit, segsConcat_nil]), hinit, canonAbs_nil]
    rfl
  · have : segsConcat done.dropLast ≠ [] := by
      match done.dropLast, hinit with
      | t :: ts, _ => exact segsConcat_ne_nil t ts
    rw [if_neg (by simpa using this), canonAbs, if_neg hinit]

/-- One whole-segment step of the loop: when the leading chunk up to the next
slash is a simple segment, the loop appends it to the canonical buffer and
continues after the slash. -/
theorem cc_chunk (input : List Char) (done : List (List Char))
    (hdone : ∀ t ∈ done, simpleSeg t = true)
    (hc : simpleSeg (input.takeWhile (fun x => x ≠ '/')) = true) :
    cleanCore true 1 false (canonAbs done).reverse input =
      cleanCore true 1 false
        (canonAbs (done ++ [input.takeWhile (fun x => x ≠ '/')])).reverse
        ((input.dropWhile (fun x => x ≠ '/')).drop 1) := by
  conv_lhs => rw [← List.takeWhile_append_dropWhile (fun x => x ≠ '/') input]
  rw [cc_seg_start true 1 _ hc, canon_step done _ hdone]
  cases hsplit : input.dropWhile (fun x => x ≠ '/') with
  | nil => rw [cc_nil, List.drop_nil, cc_nil]
  | cons e r =>
    have hb := dropWhile_boundary input
    rw [hsplit] at hb
    have he : e = '/' := by
      by_contra hcontra
      simp [isBoundary, hcontra] at hb
    subst he
    rw [cc_true_slash, List.drop_one, List.tail_cons]

theorem slash_not_mem_takeWhile (l : List Char) :
    '/' ∉ l.takeWhile (fun x => x ≠ '/') := by
  intro hmem
  have := List.mem_takeWhile_imp hmem
  simp at this

/-- Production: from any canonical buffer, the loop ends in a canonical
buffer. -/
theorem cc_produces :
    ∀ (n : Nat) (input : List Char), input.length ≤ n →
    ∀ done : List (List Char), (∀ t ∈ done, simpleSeg t = true) →
    ∃ segs' : List (List Char), (∀ t ∈ segs', simpleSeg t = true) ∧
      cleanCore true 1 false (canonAbs done).reverse input = (canonAbs segs').reverse := by
  intro n
  induction n with
  | zero =>
    intro input hlen done hdone
    have h0 : input = [] := List.length_eq_zero.mp (Nat.le_zero.mp hlen)
    subst h0
    exact ⟨done, hdone, cc_nil _ _ _ _⟩
  | succ n ih =>
    intro input hlen done hdone
    cases input with
    | nil => exact ⟨done, hdone, cc_nil _ _ _ _⟩
    | cons c rest =>
      simp only [List.length_cons] at hlen
      have chunkcase : simpleSeg ((c :: rest).takeWhile (fun x => x ≠ '/')) = true →
          c ≠ '/' →
          ∃ segs', (∀ t ∈ segs', simpleSeg t = true) ∧
            cleanCore true 1 false (canonAbs done).reverse (c :: rest) =
              (canonAbs segs').reverse := by
        intro hchunk hc
        rw [cc_chunk (c :: rest) done hdone hchunk]
        apply ih
        · have h1 : ((c :: rest).dropWhile (fun x => x ≠ '/')).length ≤ rest.length := by
            rw [List.dropWhile_cons_of_pos (by simp [hc])]
            exact (List.dropWhile_sublist _).length_le
          simp only [List.length_drop]
          omega
        · intro t ht
          rcases List.mem_append.mp ht with h1 | h1
          · exact hdone t h1
          · simp only [List.mem_singleton] at h1
            exact h1 ▸ hchunk
      by_cases hc : c = '/'
      · subst hc
        rw [cc_slash]
        exact ih rest (by omega) done hdone
      · by_cases hcd : c = '.'
        · subst hcd
          cases rest with
          | nil =>
            rw [cc_dot_end]
            exact ⟨done, hdone, rfl⟩
          | cons d r2 =>
            simp only [List.length_cons] at hlen
            by_cases hd : d = '/'
            · subst hd
              rw [cc_dot_slash]
              exact ih r2 (by omega) done hdone
            · by_cases hdd : d = '.'
              · subst hdd
                by_cases hb : isBoundary r2 = true
                · by_cases hpop : (1 : Nat) < ((canonAbs done).reverse).length
                  · have hdonene : done ≠ [] := by
                      intro hd0
                      subst hd0
                      simp [canonAbs_nil] at hpop
                    rw [cc_dotdot_pop true 1 _ r2 hb hpop,
                      popSeg_canon done hdonene hdone]
                    exact ih r2 (by omega) done.dropLast
                      (fun t ht => hdone t ((List.dropLast_sublist done).subset ht))
                  · rw [cc_dotdot_skip 1 _ r2 hb hpop]
                    exact ih r2 (by omega) done hdone
                · have hr2 : ∃ e r3, r2 = e :: r3 ∧ e ≠ '/' := by
                    cases r2 with
                    | nil => simp [isBoundary] at hb
                    | cons e r3 =>
                      refine ⟨e, r3, rfl, ?_⟩
                      intro hcontra
                      subst hcontra
                      simp [isBoundary] at hb
                  obtain ⟨e, r3, hr2eq, he⟩ := hr2
                  subst hr2eq
                  apply chunkcase _ (by simp)
                  rw [List.takeWhile_cons_of_pos (by simp),
                    List.takeWhile_cons_of_pos (by simp),
                    List.takeWhile_cons_of_pos (by simp [he])]
                  simp [simpleSeg, he]
                  exact ⟨fun h => he h.symm, by simpa using slash_not_mem_takeWhile r3⟩
              · apply chunkcase _ hc
                rw [List.takeWhile_cons_of_pos (by simp),
                  List.takeWhile_cons_of_pos (by simp [hd])]
                simp [simpleSeg, hd, hdd]
                exact ⟨fun h => hd h.symm, by simpa using slash_not_mem_takeWhile r2⟩
        · apply chunkcase _ hc
          rw [List.takeWhile_cons_of_pos (by simp [hc])]
          simp [simpleSeg, hc, hcd]
          exact ⟨fun h => hc h.symm, by simpa using slash_not_mem_takeWhile rest⟩

theorem cleanList_rooted_canon (q : List Char) :
    ∃ segs : List (List Char), (∀ t ∈ segs, simpleSeg t = true) ∧
      cleanList ('/' :: q) = canonAbs segs := by
  obtain ⟨segs, hs, heq⟩ := cc_produces q.length q le_rfl [] (by intro t ht; cases ht)
  refine ⟨segs, hs, ?_⟩
  have h0 : cleanCore true 1 false ['/'] q = (canonAbs segs).reverse := heq
  simp only [cleanList, if_true]
  rw [h0, if_neg (by simp [canonAbs_ne_nil]), List.reverse_reverse]

theorem cleanList_rooted_idem (q : List Char) :
    cleanList (cleanList ('/' :: q)) = cleanList ('/' :: q) := by
  obtain ⟨segs, hs, heq⟩ := cleanList_rooted_canon q
  rw [heq, cleanList_canon segs hs]

theorem cleanList_rooted_head (q : List Char) :
    ∃ t : List Char, cleanList ('/' :: q) = '/' :: t := by
  obtain ⟨segs, _, heq⟩ := cleanList_rooted_canon q
  obtain ⟨t, ht⟩ := canonAbs_head segs
  exact ⟨t, heq.trans ht⟩

theorem cleanList_dupslash (q : List Char) :
    cleanList ('/' :: '/' :: q) = cleanList ('/' :: q) := by
  simp only [cleanList, if_true]
  rw [cc_slash]

/-! ### String-level corollaries -/

theorem string_eq_of_data {a b : String} (h : a.data = b.data) : a = b := by
  cases a
  cases b
  exact congrArg String.mk h

theorem pathClean_data (s : String) : (pathClean s).data = cleanList s.data := rfl

theorem append_data (a b : String) : (a ++ b).data = a.data ++ b.data :=
  String.data_append a b

/-- The version rewrite always produces a `Clean`-fixed path. -/
theorem versionSwitchPath_fix (v p : String) :
    pathClean (versionSwitchPath v p) = versionSwitchPath v p := by
  apply string_eq_of_data
  have h1 : (versionSwitchPath v p).data =
      cleanList ('/' :: (pathJoin2 (pathEscape v) p).data) := by
    rw [versionSwitchPath, pathClean_data, append_data]
    rfl
  rw [pathClean_data, h1, cleanList_rooted_idem]

theorem versionSwitchPath_head (v p : String) :
    ∃ t : List Char, (versionSwitchPath v p).data = '/' :: t := by
  have h1 : (versionSwitchPath v p).data =
      cleanList ('/' :: (pathJoin2 (pathEscape v) p).data) := by
    rw [versionSwitchPath, pathClean_data, append_data]
    rfl
  obtain ⟨t, ht⟩ := cleanList_rooted_head (pathJoin2 (pathEscape v) p).data
  exact ⟨t, h1.trans ht⟩

/-- Cleaning a rooted already-clean path after prepending one more slash
gives the path back (`http.Dir.Open`'s `Clean("/" + name)`). -/
theorem diskPath_fix (v p : String) :
    diskPath (versionSwitchPath v p) = versionSwitchPath v p := by
  obtain ⟨t, ht⟩ := versionSwitchPath_head v p
  apply string_eq_of_data
  rw [diskPath, pathClean_data, append_data]
  show cleanList ('/' :: (versionSwitchPath v p).data) = _
  rw [ht, cleanList_dupslash, ← ht]
  have h2 := versionSwitchPath_fix v p
  calc cleanList (versionSwitchPath v p).data
      = (pathClean (versionSwitchPath v p)).data := rfl
    _ = (versionSwitchPath v p).data := by rw [h2]

theorem versionSwitchPath_ne_empty (v p : String) : versionSwitchPath v p ≠ "" := by
  obtain ⟨t, ht⟩ := versionSwitchPath_head v p
  intro hcontra
  rw [hcontra] at ht
  cases ht

/-- With an empty origin base path, `path.Join` leaves the canonical key
untouched. -/
theorem fetchURLPath_empty_base (v p : String) :
    fetchURLPath "" (versionSwitchPath v p) = versionSwitchPath v p := by
  rw [fetchURLPath, pathJoin2, if_neg (by simp),
    if_pos (versionSwitchPath_ne_empty v p)]
  exact versionSwitchPath_fix v p

/-! ### Header and cache store facts -/

theorem find_filter_ne (hs : List (String × String)) (k : String) :
    (hs.filter (fun kv => kv.1 ≠ k)).find? (fun kv => kv.1 = k) = none := by
  induction hs with
  | nil => rfl
  | cons kv rest ih =>
    by_cases h : kv.1 = k
    · simp [List.filter_cons, h, ih]
    · simp [List.filter_cons, h, List.find?_cons, ih]

theorem headerGet_set_append (hs extra : List (String × String)) (k v : String) :
    headerGet (headerSet hs k v ++ extra) k = some v := by
  rw [headerSet, headerGet, List.append_assoc, List.find?_append, find_filter_ne]
  simp [List.find?_cons]

theorem headerGet_set (hs : List (String × String)) (k v : String) :
    headerGet (headerSet hs k v) k = some v := by
  have h := headerGet_set_append hs [] k v
  simpa using h

theorem cacheLookup_insert_same (cache : Cache) (p : String) (f : FileContent) :
    cacheLookup (cacheInsert cache p f) p = some f := by
  simp [cacheLookup, cacheInsert, List.find?_cons]

theorem tryServe_miss {cache : Cache} {name : String}
    (h : cacheLookup cache (diskPath name) = none) :
    tryServeFileResult cache name = Except.error TryServeError.notExist := by
  rw [tryServeFileResult, h]

theorem tryServe_after_insert (cache : Cache) (name : String) (res : HttpResponse) :
    tryServeFileResult (cacheInsert cache (diskPath name) (FileContent.response res))
      name = Except.ok res := by
  rw [tryServeFileResult, cacheLookup_insert_same]

/-! ## The claims -/

/-- Claim C1: the resolved version token follows the priority order: a
present and non-empty `version` query parameter wins; otherwise a present
`version-override` cookie's value; otherwise the value the default-version
accessor returns at resolution time. -/
theorem claim1_version_priority (dv : Unit → String) (now : Nat) (req : Request) :
    (versionSwitchStep dv now req emptyRW).1 =
      if queryGet req.query "version" ≠ "" then queryGet req.query "version"
      else
        match cookieGet req.cookies VERSION_COOKIE_NAME with
        | some c => c
        | none => dv () := by
  by_cases h : queryGet req.query "version" ≠ ""
  · simp [versionSwitchStep, h]
  · simp only [versionSwitchStep, h, if_neg, if_false, ite_not]
    cases hck : cookieGet req.cookies VERSION_COOKIE_NAME <;> simp [h, hck]

/-- Claim C6: a transport error on a cache miss yields a 500-class response,
exactly one origin contact, and an unchanged cache (no file created). -/
theorem claim6_transport_error (origin : String → Option HttpResponse)
    (basePath : String) (cache : Cache) (reqPath : String) (rw0 : ResponseWriter)
    (hmiss : cacheLookup cache (diskPath (pathClean reqPath)) = none)
    (herr : origin (fetchURLPath basePath (pathClean reqPath)) = none)
    (hst : rw0.status = none) :
    (serveHTTPStep origin basePath cache reqPath rw0).rw.status = some 500 ∧
    (serveHTTPStep origin basePath cache reqPath rw0).cache = cache ∧
    (serveHTTPStep origin basePath cache reqPath rw0).originCalls = 1 := by
  have h1 := tryServe_miss hmiss
  have h2 : doCacheFetchStep origin basePath cache (pathClean reqPath) = none := by
    rw [doCacheFetchStep, herr]
  simp only [serveHTTPStep, h1, h2]
  exact ⟨by simp [doError, writeStatus, hst], trivial, trivial⟩

/-- Claim C9: a cache file that exists but fails to parse as a stored
response yields a 500-class response, leaves the file in place, never
contacts the origin, and still carries `X-Cache: hit` because the hit marker
is set before the lookup. -/
theorem claim9_malformed (origin : String → Option HttpResponse)
    (basePath : String) (cache : Cache) (reqPath : String) (rw0 : ResponseWriter)
    (hbad : cacheLookup cache (diskPath (pathClean reqPath)) = some FileContent.malformed)
    (hst : rw0.status = none) :
    (serveHTTPStep origin basePath cache reqPath rw0).rw.status = some 500 ∧
    (serveHTTPStep origin basePath cache reqPath rw0).cache = cache ∧
    (serveHTTPStep origin basePath cache reqPath rw0).originCalls = 0 ∧
    headerGet (serveHTTPStep origin basePath cache reqPath rw0).rw.headers
      "X-Cache" = some "hit" := by
  have h1 : tryServeFileResult cache (pathClean reqPath) =
      Except.error TryServeError.parseFail := by
    rw [tryServeFileResult, hbad]
  simp only [serveHTTPStep, h1]
  refine ⟨by simp [doError, writeStatus, hst], trivial, trivial, ?_⟩
  simpa [doError] using headerGet_set rw0.headers "X-Cache" "hit"

/-- Claim C7: every request performs at most one origin fetch and at most
two cache lookups; a miss fetches once and retries the lookup exactly once,
and a failed fetch ends in an error response with no retry. -/
theorem claim7_single_fetch (origin : String → Option HttpResponse)
    (basePath : String) (cache : Cache) (reqPath : String) (rw0 : ResponseWriter) :
    (serveHTTPStep origin basePath cache reqPath rw0).originCalls ≤ 1 ∧
    (serveHTTPStep origin basePath cache reqPath rw0).lookups ≤ 2 ∧
    (tryServeFileResult cache (pathClean reqPath) =
        Except.error TryServeError.notExist →
      (serveHTTPStep origin basePath cache reqPath rw0).originCalls = 1 ∧
      (∀ cache2, doCacheFetchStep origin basePath cache (pathClean reqPath) =
          some cache2 →
        (serveHTTPStep origin basePath cache reqPath rw0).lookups = 2) ∧
      (doCacheFetchStep origin basePath cache (pathClean reqPath) = none →
        (serveHTTPStep origin basePath cache reqPath rw0).lookups = 1 ∧
        (serveHTTPStep origin basePath cache reqPath rw0).rw.status =
          writeStatus rw0.status 500)) := by
  cases h1 : tryServeFileResult cache (pathClean reqPath) with
  | ok r => simp [serveHTTPStep, h1]
  | error e =>
    cases e with
    | parseFail => simp [serveHTTPStep, h1]
    | notExist =>
      cases h2 : doCacheFetchStep origin basePath cache (pathClean reqPath) with
      | none => simp [serveHTTPStep, h1, h2, doError]
      | some c2 =>
        cases h3 : tryServeFileResult c2 (pathClean reqPath) with
        | ok r => simp [serveHTTPStep, h1, h2, h3]
        | error e2 => simp [serveHTTPStep, h1, h2, h3]

/-- Claim C8 counterexample: when the version comes from the cookie, the
refreshed `Set-Cookie` re-sends the parsed request cookie, which carries no
`Path` attribute, so its path is `""`, not `"/"`. -/
theorem claim8_counterexample :
    ((versionSwitchStep (fun _ => "d") 100
        ⟨"/a.js", [], [("version-override", "v2")]⟩ emptyRW).2.1.cookies =
      [⟨"version-override", "v2", "", 3700, false⟩]) ∧
    ("" : String) ≠ "/" := by
  constructor
  · rfl
  · decide

/-- Claim C8 (amended): a query-resolved version sets `Cache-Control:
no-store` and a `version-override` cookie with path `/`, expiry one hour
from now, not HTTP-only, and the raw token as value; a cookie-resolved
version sets `Cache-Control: no-store` and re-sends the request cookie with
expiry one hour from now, not HTTP-only and without a path attribute; a
default-resolved version emits neither header. -/
theorem claim8_cookie_headers (dv : Unit → String) (now : Nat) (req : Request) :
    (queryGet req.query "version" ≠ "" →
      (versionSwitchStep dv now req emptyRW).2.1.cookies =
        [⟨VERSION_COOKIE_NAME, queryGet req.query "version", "/", now + 3600, false⟩] ∧
      headerGet (versionSwitchStep dv now req emptyRW).2.1.headers "Cache-Control" =
        some "no-store") ∧
    (queryGet req.query "version" = "" →
      ∀ cv, cookieGet req.cookies VERSION_COOKIE_NAME = some cv →
      (versionSwitchStep dv now req emptyRW).2.1.cookies =
        [⟨VERSION_COOKIE_NAME, cv, "", now + 3600, false⟩] ∧
      headerGet (versionSwitchStep dv now req emptyRW).2.1.headers "Cache-Control" =
        some "no-store") ∧
    (queryGet req.query "version" = "" →
      cookieGet req.cookies VERSION_COOKIE_NAME = none →
      (versionSwitchStep dv now req emptyRW).2.1.cookies = [] ∧
      headerGet (versionSwitchStep dv now req emptyRW).2.1.headers "Cache-Control" =
        none) := by
  refine ⟨?_, ?_, ?_⟩
  · intro hq
    simp [versionSwitchStep, hq, emptyRW, headerGet_set]
  · intro hq cv hck
    simp [versionSwitchStep, hq, hck, emptyRW, headerGet_set]
  · intro hq hck
    simp [versionSwitchStep, hq, hck, emptyRW, headerGet]

/-- Claim C5: origin status codes are not interpreted: on a miss, any origin
response — 404 and 5xx included — is persisted verbatim and served; the
repeat request returns the same status and body from the cache with
`X-Cache: hit` and no further origin call. -/
theorem claim5_status_blind (origin : String → Option HttpResponse)
    (basePath : String) (cache : Cache) (reqPath : String) (rw0 : ResponseWriter)
    (res : HttpResponse)
    (hmiss : cacheLookup cache (diskPath (pathClean reqPath)) = none)
    (hres : origin (fetchURLPath basePath (pathClean reqPath)) = some res)
    (hst : rw0.status = none) :
    (serveHTTPStep origin basePath cache reqPath rw0).originCalls = 1 ∧
    (serveHTTPStep origin basePath cache reqPath rw0).rw.status = some res.statusCode ∧
    (serveHTTPStep origin basePath cache reqPath rw0).rw.body = rw0.body ++ res.body ∧
    headerGet (serveHTTPStep origin basePath cache reqPath rw0).rw.headers
      "X-Cache" = some "miss" ∧
    (serveHTTPStep origin basePath cache reqPath rw0).cache =
      cacheInsert cache (diskPath (pathClean reqPath)) (FileContent.response res) ∧
    (serveHTTPStep origin basePath
      (serveHTTPStep origin basePath cache reqPath rw0).cache reqPath rw0).originCalls = 0 ∧
    (serveHTTPStep origin basePath
      (serveHTTPStep origin basePath cache reqPath rw0).cache reqPath rw0).rw.status =
      some res.statusCode ∧
    (serveHTTPStep origin basePath
      (serveHTTPStep origin basePath cache reqPath rw0).cache reqPath rw0).rw.body =
      rw0.body ++ res.body ∧
    headerGet (serveHTTPStep origin basePath
      (serveHTTPStep origin basePath cache reqPath rw0).cache reqPath rw0).rw.headers
      "X-Cache" = some "hit" ∧
    (serveHTTPStep origin basePath
      (serveHTTPStep origin basePath cache reqPath rw0).cache reqPath rw0).cache =
      (serveHTTPStep origin basePath cache reqPath rw0).cache := by
  have h1 := tryServe_miss hmiss
  have h2 : doCacheFetchStep origin basePath cache (pathClean reqPath) =
      some (cacheInsert cache (diskPath (pathClean reqPath))
        (FileContent.response res)) := by
    rw [doCacheFetchStep, hres]
  have h3 := tryServe_after_insert cache (pathClean reqPath) res
  simp only [serveHTTPStep, h1, h2, h3]
  refine ⟨by trivial, ?_, by trivial, ?_, by trivial, by trivial, ?_, by trivial, ?_,
    by trivial⟩
  · simp [writeResponseTo, writeStatus, hst]
  · simp only [writeResponseTo]
    exact headerGet_set_append _ res.headers "X-Cache" "miss"
  · simp [writeResponseTo, writeStatus, hst]
  · simp only [writeResponseTo]
    exact headerGet_set_append _ res.headers "X-Cache" "hit"

/-- The `name` variable of `ServeHTTP` is the cleaned request path, in every
branch. -/
theorem serve_servedName (origin : String → Option HttpResponse)
    (basePath : String) (cache : Cache) (reqPath : String) (rw0 : ResponseWriter) :
    (serveHTTPStep origin basePath cache reqPath rw0).servedName =
      pathClean reqPath := by
  cases h1 : tryServeFileResult cache (pathClean reqPath) with
  | ok r => simp [serveHTTPStep, h1]
  | error e =>
    cases e with
    | parseFail => simp [serveHTTPStep, h1]
    | notExist =>
      cases h2 : doCacheFetchStep origin basePath cache (pathClean reqPath) with
      | none => simp [serveHTTPStep, h1, h2]
      | some c2 =>
        cases h3 : tryServeFileResult c2 (pathClean reqPath) with
        | ok r => simp [serveHTTPStep, h1, h2, h3]
        | error e2 => simp [serveHTTPStep, h1, h2, h3]

/-- The path the fileServer works with is exactly the version rewrite of the
app-shell rewrite of the original path. -/
theorem handle_servedName (dv : Unit → String) (now : Nat)
    (origin : String → Option HttpResponse) (basePath : String)
    (cache : Cache) (req : Request) :
    (handleRequest dv now origin basePath cache req).1.servedName =
      versionSwitchPath (versionSwitchStep dv now req emptyRW).1
        (appRewritePath req.path) := by
  rw [handleRequest]
  exact (serve_servedName _ _ _ _ _).trans (versionSwitchPath_fix _ _)

/-- Claim C2 counterexample: for the extensionless original path `/about`
with resolved version `v1`, the canonical key is `/v1/index.html`, not
`clean("/" + join(escape(v1), "/about")) = /v1/about`. -/
theorem claim2_counterexample :
    (handleRequest (fun _ => "d") 0 (fun _ => none) "" []
        ⟨"/about", [("version", "v1")], []⟩).1.servedName ≠
      pathClean ("/" ++ pathJoin2 (pathEscape "v1") "/about") := by
  decide

/-- Claim C2 (amended): the canonical path is
`clean("/" + join(escape(v), p'))` for the post-app-shell path `p'` (the
original path if it has an extension, else `/index.html`); this one string
is the fileServer's `name`, is its own storage path under the cache root,
is the origin-relative fetch path when the origin base path is empty, and
is the key under which a fetched response is persisted. -/
theorem claim2_canonical_key (dv : Unit → String) (now : Nat)
    (origin : String → Option HttpResponse) (basePath : String)
    (cache : Cache) (req : Request) :
    (handleRequest dv now origin basePath cache req).1.servedName =
      versionSwitchPath (versionSwitchStep dv now req emptyRW).1
        (appRewritePath req.path) ∧
    diskPath (versionSwitchPath (versionSwitchStep dv now req emptyRW).1
        (appRewritePath req.path)) =
      versionSwitchPath (versionSwitchStep dv now req emptyRW).1
        (appRewritePath req.path) ∧
    fetchURLPath "" (versionSwitchPath (versionSwitchStep dv now req emptyRW).1
        (appRewritePath req.path)) =
      versionSwitchPath (versionSwitchStep dv now req emptyRW).1
        (appRewritePath req.path) ∧
    (∀ res : HttpResponse,
      cacheLookup cache (versionSwitchPath (versionSwitchStep dv now req emptyRW).1
        (appRewritePath req.path)) = none →
      origin (fetchURLPath basePath
        (versionSwitchPath (versionSwitchStep dv now req emptyRW).1
          (appRewritePath req.path))) = some res →
      (handleRequest dv now origin basePath cache req).1.cache =
        cacheInsert cache
          (versionSwitchPath (versionSwitchStep dv now req emptyRW).1
            (appRewritePath req.path))
          (FileContent.response res)) := by
  refine ⟨handle_servedName dv now origin basePath cache req,
    diskPath_fix _ _, fetchURLPath_empty_base _ _, ?_⟩
  intro res hmiss hres
  rw [handleRequest]
  have hfix := versionSwitchPath_fix (versionSwitchStep dv now req emptyRW).1
    (appRewritePath req.path)
  have hdfix := diskPath_fix (versionSwitchStep dv now req emptyRW).1
    (appRewritePath req.path)
  have h1 : tryServeFileResult cache
      (pathClean (versionSwitchPath (versionSwitchStep dv now req emptyRW).1
        (appRewritePath req.path))) = Except.error TryServeError.notExist := by
    apply tryServe_miss
    rw [hfix, hdfix]
    exact hmiss
  have h2 : doCacheFetchStep origin basePath cache
      (pathClean (versionSwitchPath (versionSwitchStep dv now req emptyRW).1
        (appRewritePath req.path))) =
      some (cacheInsert cache
        (versionSwitchPath (versionSwitchStep dv now req emptyRW).1
          (appRewritePath req.path)) (FileContent.response res)) := by
    rw [doCacheFetchStep, hfix, hres, hdfix]
  have h3 := tryServe_after_insert cache
    (pathClean (versionSwitchPath (versionSwitchStep dv now req emptyRW).1
      (appRewritePath req.path))) res
  rw [hfix, hdfix] at h3
  simp only [serveHTTPStep, h1, h2]
  rw [hfix]
  simp only [h3]

/-- `path.Join` of a plain segment with `/index.html` concatenates them. -/
theorem pathJoin2_simple_index (ev : String) (h : simpleSeg ev.data = true) :
    pathJoin2 ev "/index.html" = ev ++ "/index.html" := by
  have h' := h
  simp only [simpleSeg, Bool.and_eq_true, decide_eq_true_eq] at h'
  obtain ⟨hdne, hnosl, _, _⟩ := h'
  have hne : ev ≠ "" := by
    intro hcontra
    apply hdne
    rw [hcontra]
  rw [pathJoin2, if_pos hne]
  apply string_eq_of_data
  rw [pathClean_data]
  have hsplit : (ev ++ "/" ++ "/index.html").data =
      ev.data ++ ('/' :: '/' :: ("index.html" : String).data) := by
    rw [append_data, append_data, List.append_assoc]
    rfl
  rw [hsplit]
  obtain ⟨c, cs, hcs⟩ : ∃ c cs, ev.data = c :: cs := by
    match hd : ev.data, hdne with
    | c :: cs, _ => exact ⟨c, cs, rfl⟩
  have hc : c ≠ '/' := by
    intro hq
    apply hnosl
    rw [hcs, hq]
    exact List.mem_cons_self '/' cs
  have hrevne : ev.data.reverse ≠ [] := by simp [hcs]
  have hrun : cleanCore false 0 false []
      (ev.data ++ ('/' :: '/' :: ("index.html" : String).data)) =
      ("index.html" : String).data.reverse ++ '/' :: ev.data.reverse := by
    rw [cc_seg_start false 0 ev.data h]
    have hsm : slashMaybe false ([] : List Char) = [] := by simp [slashMaybe]
    rw [hsm, List.append_nil, cc_true_slash, cc_slash]
    have hidx : simpleSeg ("index.html" : String).data = true := by decide
    calc cleanCore false 0 false ev.data.reverse ("index.html" : String).data
        = cleanCore false 0 false ev.data.reverse
            (("index.html" : String).data ++ []) := by rw [List.append_nil]
      _ = cleanCore false 0 true
            (("index.html" : String).data.reverse ++
              slashMaybe false ev.data.reverse) [] :=
          cc_seg_start false 0 _ hidx ev.data.reverse []
      _ = ("index.html" : String).data.reverse ++ '/' :: ev.data.reverse := by
          rw [cc_nil, slashMaybe, if_pos (Or.inr ⟨by simp, hrevne⟩)]
  have hstep : cleanList (ev.data ++ ('/' :: '/' :: ("index.html" : String).data)) =
      (("index.html" : String).data.reverse ++ '/' :: ev.data.reverse).reverse := by
    rw [hcs, List.cons_append]
    simp only [cleanList, if_neg hc]
    rw [← List.cons_append, ← hcs, hrun]
    rw [if_neg (by simp)]
  rw [hstep, append_data]
  simp [List.reverse_append]

/-- For a well-behaved escaped token, the version rewrite of `/index.html`
is literally `/{escaped-version}/index.html`. -/
theorem versionSwitchPath_index (v : String)
    (h : simpleSeg (pathEscape v).data = true) :
    versionSwitchPath v "/index.html" = "/" ++ pathEscape v ++ "/index.html" := by
  rw [versionSwitchPath, pathJoin2_simple_index (pathEscape v) h]
  apply string_eq_of_data
  rw [pathClean_data]
  have hidx : simpleSeg ("index.html" : String).data = true := by decide
  have hsimp : ∀ s ∈ [(pathEscape v).data, ("index.html" : String).data],
      simpleSeg s = true := by
    intro s hs
    rcases List.mem_cons.mp hs with h1 | h1
    · exact h1 ▸ h
    · simp only [List.mem_singleton] at h1
      exact h1 ▸ hidx
  have hsplit : ("/" ++ (pathEscape v ++ "/index.html")).data =
      canonAbs [(pathEscape v).data, ("index.html" : String).data] := by
    rw [append_data, append_data, canonAbs, if_neg (by simp),
      segsConcat_cons, segsConcat_cons, segsConcat_nil]
    show '/' :: ((pathEscape v).data ++ '/' :: ("index.html" : String).data) = _
    simp
  rw [hsplit, cleanList_canon _ hsimp, ← hsplit, append_data, append_data,
    append_data]
  simp

/-- With the empty version token (so an empty escaped segment), the version
rewrite of a rooted path is just `clean("/" + path)`: no version segment is
inserted. -/
theorem versionSwitchPath_empty (p : String) (q : List Char)
    (hp : p.data = '/' :: q) :
    versionSwitchPath "" p = pathClean ("/" ++ p) := by
  have hpne : p ≠ "" := by
    intro hcontra
    rw [hcontra] at hp
    cases hp
  have hesc : pathEscape "" = "" := rfl
  rw [versionSwitchPath, hesc, pathJoin2, if_neg (by simp), if_pos hpne]
  apply string_eq_of_data
  obtain ⟨t, ht⟩ := cleanList_rooted_head q
  have hinner : (pathClean p).data = '/' :: t := by
    rw [pathClean_data, hp, ht]
  calc (pathClean ("/" ++ pathClean p)).data
      = cleanList (('/' : Char) :: (pathClean p).data) := by
        rw [pathClean_data, append_data]
        rfl
    _ = cleanList ('/' :: '/' :: t) := by rw [hinner]
    _ = cleanList ('/' :: t) := cleanList_dupslash t
    _ = cleanList (cleanList ('/' :: q)) := by rw [ht]
    _ = cleanList ('/' :: q) := cleanList_rooted_idem q
    _ = cleanList (('/' : Char) :: p.data) := by rw [hp, cleanList_dupslash]
    _ = (pathClean ("/" ++ p)).data := by
        rw [pathClean_data, append_data]
        rfl

/-- Claim C3: every request whose original path has no extension is served
`/{version}/index.html` for the resolved version (here stated for any
version whose escaped form is a plain path segment); paths with an
extension pass through the app-shell stage unchanged, receiving only the
version prefix. -/
theorem claim3_app_shell_target (dv : Unit → String) (now : Nat)
    (origin : String → Option HttpResponse) (basePath : String)
    (cache : Cache) (req : Request)
    (hext : pathExt req.path = "")
    (hsimple : simpleSeg (pathEscape (versionSwitchStep dv now req emptyRW).1).data
      = true) :
    (handleRequest dv now origin basePath cache req).1.servedName =
      "/" ++ pathEscape (versionSwitchStep dv now req emptyRW).1 ++ "/index.html" ∧
    (∀ p2 : String, pathExt p2 ≠ "" → appRewritePath p2 = p2) := by
  constructor
  · rw [handle_servedName, appRewritePath, if_pos hext]
    exact versionSwitchPath_index _ hsimple
  · intro p2 h2
    rw [appRewritePath, if_neg h2]

/-- Claim C4 counterexample: with resolved version `v1` and original path
`/about`, the program serves `/v1/index.html`, while applying app-shell
routing after version rewriting (as the claim describes) would discard the
version prefix and serve `/index.html`. -/
theorem claim4_counterexample :
    (handleRequest (fun _ => "d") 0 (fun _ => none) "" []
        ⟨"/about", [("version", "v1")], []⟩).1.servedName = "/v1/index.html" ∧
    specOrderedRewritePath "v1" "/about" = "/index.html" ∧
    ("/v1/index.html" : String) ≠ "/index.html" := by
  refine ⟨?_, by decide, by decide⟩
  rw [handle_servedName]
  decide

/-- Claim C4 (amended): app-shell routing runs before version rewriting: the
no-extension test is evaluated on the original request path, and an
extensionless path is replaced by `/index.html` before the version prefix
is applied. -/
theorem claim4_app_shell_first (dv : Unit → String) (now : Nat)
    (origin : String → Option HttpResponse) (basePath : String)
    (cache : Cache) (req : Request) :
    (handleRequest dv now origin basePath cache req).1.servedName =
      versionSwitchPath (versionSwitchStep dv now req emptyRW).1
        (if pathExt req.path = "" then "/index.html" else req.path) := by
  rw [handle_servedName]
  rfl

/-- Claim C10: with no `version` query parameter and a `version-override`
cookie holding the empty string, the empty string is the resolved token (for
every default accessor, which is not consulted), `Cache-Control: no-store`
is still set, and the rewritten path is `clean("/" + path)` with no version
segment; the request then proceeds through the ordinary serve path. -/
theorem claim10_empty_cookie (dv : Unit → String) (now : Nat)
    (origin : String → Option HttpResponse) (basePath : String)
    (cache : Cache) (req : Request) (q : List Char)
    (hq : queryGet req.query "version" = "")
    (hck : cookieGet req.cookies VERSION_COOKIE_NAME = some "")
    (hp : req.path.data = '/' :: q) :
    (versionSwitchStep dv now req emptyRW).1 = "" ∧
    (versionSwitchStep dv now req emptyRW).2.2 = false ∧
    headerGet (versionSwitchStep dv now req emptyRW).2.1.headers "Cache-Control" =
      some "no-store" ∧
    versionSwitchPath "" req.path = pathClean ("/" ++ req.path) ∧
    (handleRequest dv now origin basePath cache req).1.servedName =
      pathClean ("/" ++ appRewritePath req.path) := by
  have hv : (versionSwitchStep dv now req emptyRW).1 = "" := by
    simp [versionSwitchStep, hq, hck]
  refine ⟨hv, ?_, ?_, versionSwitchPath_empty req.path q hp, ?_⟩
  · simp [versionSwitchStep, hq, hck]
  · simp [versionSwitchStep, hq, hck, emptyRW, headerGet_set]
  · rw [handle_servedName, hv]
    by_cases hext : pathExt req.path = ""
    · rw [appRewritePath, if_pos hext]
      exact versionSwitchPath_empty "/index.html" ("index.html" : String).data rfl
    · rw [appRewritePath, if_neg hext]
      exact versionSwitchPath_empty req.path q hp

/-! ### Witnesses: each claim theorem with hypotheses evaluated at a
concrete input -/

theorem claim2_canonical_key_witness :
    (handleRequest (fun _ => "v1") 0
        (fun p => if p = "/v1/app.js" then
          some ⟨200, [], "ok"⟩ else none) "" []
        ⟨"/app.js", [], []⟩).1.cache =
      cacheInsert [] "/v1/app.js" (FileContent.response ⟨200, [], "ok"⟩) := by
  have h := (claim2_canonical_key (fun _ => "v1") 0
      (fun p => if p = "/v1/app.js" then some ⟨200, [], "ok"⟩ else none) "" []
      ⟨"/app.js", [], []⟩).2.2.2 ⟨200, [], "ok"⟩ (by decide) (by decide)
  rw [h]
  decide

theorem claim3_app_shell_target_witness :
    (handleRequest (fun _ => "v1") 0 (fun _ => none) "" []
        ⟨"/about", [], []⟩).1.servedName = "/v1/index.html" := by
  have h := (claim3_app_shell_target (fun _ => "v1") 0 (fun _ => none) "" []
      ⟨"/about", [], []⟩ (by decide) (by decide)).1
  rw [h]
  decide

theorem claim5_status_blind_witness :
    (serveHTTPStep
        (fun p => if p = "/v3/missing.css" then
          some ⟨404, [("Content-Type", "text/css")], "nf"⟩ else none)
        "" [] "/v3/missing.css" emptyRW).originCalls = 1 ∧
    (serveHTTPStep
        (fun p => if p = "/v3/missing.css" then
          some ⟨404, [("Content-Type", "text/css")], "nf"⟩ else none)
        ""
        (serveHTTPStep
          (fun p => if p = "/v3/missing.css" then
            some ⟨404, [("Content-Type", "text/css")], "nf"⟩ else none)
          "" [] "/v3/missing.css" emptyRW).cache
        "/v3/missing.css" emptyRW).originCalls = 0 ∧
    (serveHTTPStep
        (fun p => if p = "/v3/missing.css" then
          some ⟨404, [("Content-Type", "text/css")], "nf"⟩ else none)
        ""
        (serveHTTPStep
          (fun p => if p = "/v3/missing.css" then
            some ⟨404, [("Content-Type", "text/css")], "nf"⟩ else none)
          "" [] "/v3/missing.css" emptyRW).cache
        "/v3/missing.css" emptyRW).rw.status = some 404 ∧
    headerGet (serveHTTPStep
        (fun p => if p = "/v3/missing.css" then
          some ⟨404, [("Content-Type", "text/css")], "nf"⟩ else none)
        ""
        (serveHTTPStep
          (fun p => if p = "/v3/missing.css" then
            some ⟨404, [("Content-Type", "text/css")], "nf"⟩ else none)
          "" [] "/v3/missing.css" emptyRW).cache
        "/v3/missing.css" emptyRW).rw.headers "X-Cache" = some "hit" := by
  have h := claim5_status_blind
    (fun p => if p = "/v3/missing.css" then
      some ⟨404, [("Content-Type", "text/css")], "nf"⟩ else none)
    "" [] "/v3/missing.css" emptyRW ⟨404, [("Content-Type", "text/css")], "nf"⟩
    (by decide) (by decide) rfl
  exact ⟨h.1, h.2.2.2.2.2.1, h.2.2.2.2.2.2.1, h.2.2.2.2.2.2.2.2.1⟩

theorem claim6_transport_error_witness :
    (serveHTTPStep (fun _ => none) "" [] "/v1/x.js" emptyRW).rw.status = some 500 ∧
    (serveHTTPStep (fun _ => none) "" [] "/v1/x.js" emptyRW).cache = [] ∧
    (serveHTTPStep (fun _ => none) "" [] "/v1/x.js" emptyRW).originCalls = 1 :=
  claim6_transport_error (fun _ => none) "" [] "/v1/x.js" emptyRW
    (by decide) rfl rfl

theorem claim7_single_fetch_witness :
    (serveHTTPStep (fun _ => none) "" [] "/a.js" emptyRW).originCalls ≤ 1 ∧
    (serveHTTPStep (fun _ => none) "" [] "/a.js" emptyRW).lookups ≤ 2 ∧
    (serveHTTPStep (fun _ => none) "" [] "/a.js" emptyRW).originCalls = 1 ∧
    (serveHTTPStep (fun _ => none) "" [] "/a.js" emptyRW).lookups = 1 ∧
    (serveHTTPStep (fun _ => none) "" [] "/a.js" emptyRW).rw.status = some 500 := by
  obtain ⟨h1, h2, h3⟩ := claim7_single_fetch (fun _ => none) "" [] "/a.js" emptyRW
  obtain ⟨h4, _, h6⟩ := h3 rfl
  have h7 := h6 rfl
  exact ⟨h1, h2, h4, h7.1, h7.2.trans rfl⟩

theorem claim8_cookie_headers_witness :
    (versionSwitchStep (fun _ => "d") 100
        ⟨"/a.js", [("version", "v9")], []⟩ emptyRW).2.1.cookies =
      [⟨VERSION_COOKIE_NAME, "v9", "/", 3700, false⟩] ∧
    headerGet (versionSwitchStep (fun _ => "d") 100
        ⟨"/a.js", [("version", "v9")], []⟩ emptyRW).2.1.headers "Cache-Control" =
      some "no-store" := by
  have h := (claim8_cookie_headers (fun _ => "d") 100
    ⟨"/a.js", [("version", "v9")], []⟩).1 (by decide)
  refine ⟨?_, h.2⟩
  rw [h.1]
  decide

theorem claim9_malformed_witness :
    (serveHTTPStep (fun _ => none) ""
        [("/v1/index.html", FileContent.malformed)] "/v1/index.html"
        emptyRW).rw.status = some 500 ∧
    (serveHTTPStep (fun _ => none) ""
        [("/v1/index.html", FileContent.malformed)] "/v1/index.html"
        emptyRW).cache = [("/v1/index.html", FileContent.malformed)] ∧
    (serveHTTPStep (fun _ => none) ""
        [("/v1/index.html", FileContent.malformed)] "/v1/index.html"
        emptyRW).originCalls = 0 ∧
    headerGet (serveHTTPStep (fun _ => none) ""
        [("/v1/index.html", FileContent.malformed)] "/v1/index.html"
        emptyRW).rw.headers "X-Cache" = some "hit" :=
  claim9_malformed (fun _ => none) ""
    [("/v1/index.html", FileContent.malformed)] "/v1/index.html" emptyRW
    (by decide) rfl

theorem claim10_empty_cookie_witness :
    (versionSwitchStep (fun _ => "dflt") 0
        ⟨"/app.js", [], [("version-override", "")]⟩ emptyRW).1 = "" ∧
    headerGet (versionSwitchStep (fun _ => "dflt") 0
        ⟨"/app.js", [], [("version-override", "")]⟩ emptyRW).2.1.headers
      "Cache-Control" = some "no-store" ∧
    (handleRequest (fun _ => "dflt") 0 (fun _ => none) "" []
        ⟨"/app.js", [], [("version-override", "")]⟩).1.servedName =
      pathClean ("/" ++ appRewritePath "/app.js") := by
  have h := claim10_empty_cookie (fun _ => "dflt") 0 (fun _ => none) "" []
    ⟨"/app.js", [], [("version-override", "")]⟩ ("app.js" : String).data
    (by decide) (by decide) rfl
  exact ⟨h.1, h.2.2.1, h.2.2.2.2⟩

end CraProxy
